import Mathlib

/-!
Verification of the RuchDB memory toolkit core: size/alignment arithmetic
(`rmem/src/align.rs`), the raw allocation layer (`rmem/src/alloc.rs`), the
ZMEM size-tagged allocation scheme, and the `RString` byte buffer built on it
(`rtypes/src/rstring.rs`).

The embedding targets a 64-bit platform (pointer width 8): `usize` values are
natural numbers, and every arithmetic step of the source that can wrap is
modelled with an explicit reduction modulo `2 ^ 64`, matching the wrapping
semantics of release-mode Rust.  Heap effects are made explicit: an allocation
is a value holding its header word and body bytes, the fresh (uninitialised)
bytes an allocation returns are supplied by an oracle `junk : Nat -> Nat`, and
an operation whose run aborts, panics, or hits undefined behaviour (failed
allocation, zero-size layout, out-of-bounds raw memory access) produces
`none`.
-/

/-- `2 ^ 64`, the modulus of `usize` arithmetic on the 64-bit target. -/
def USIZE_MOD : Nat := 2 ^ 64

/-- `align.rs`: `SYS_ALIGN_SIZE = align_of::<usize>()`, 8 on a 64-bit target. -/
def SYS_ALIGN_SIZE : Nat := 8

/-- `alloc.rs`: `ZMEM_HEADER_SIZE = size_of::<usize>()`, 8 on a 64-bit target. -/
def ZMEM_HEADER_SIZE : Nat := 8

/-- `alloc.rs`: `ZMEM_ALIGN_SIZE = align_of::<usize>()`, 8 on a 64-bit target. -/
def ZMEM_ALIGN_SIZE : Nat := 8

/-- `align.rs` `size_of_aligned(size, align) = (size + (align - 1)) & !(align - 1)`.
The sum wraps modulo `2 ^ 64` as `usize` addition does in release mode, and
`!m` is the 64-bit complement `2 ^ 64 - 1 - m`. -/
def size_of_aligned (size align : Nat) : Nat :=
  ((size + (align - 1)) % USIZE_MOD) &&& (USIZE_MOD - 1 - (align - 1))

/-- `align.rs` `size_of_sys_aligned(size)`: round to the native pointer width. -/
def size_of_sys_aligned (size : Nat) : Nat :=
  size_of_aligned size SYS_ALIGN_SIZE

theorem land_high_mask (x k : Nat) (hk : k ≤ 64) (hx : x < 2 ^ 64) :
    x &&& (2 ^ 64 - 2 ^ k) = x / 2 ^ k * 2 ^ k := by
  have hmask : 2 ^ 64 - 2 ^ k = (2 ^ (64 - k) - 1) <<< k := by
    rw [Nat.shiftLeft_eq, Nat.sub_mul, one_mul, ← Nat.pow_add]
    congr 2
    omega
  have hdiv : x / 2 ^ k * 2 ^ k = (x >>> k) <<< k := by
    rw [Nat.shiftRight_eq_div_pow, Nat.shiftLeft_eq]
  rw [hmask, hdiv]
  apply Nat.eq_of_testBit_eq
  intro i
  rw [Nat.testBit_land, Nat.testBit_shiftLeft, Nat.testBit_shiftLeft, Nat.testBit_shiftRight]
  by_cases hki : k ≤ i
  · have hge : decide (i ≥ k) = true := by simp [hki]
    simp only [hge, Bool.true_and]
    rw [Nat.testBit_two_pow_sub_one]
    have hik : k + (i - k) = i := by omega
    rw [hik]
    by_cases h64 : i < 64
    · have h1 : i - k < 64 - k := by omega
      simp [h1]
    · have hxi : x.testBit i = false :=
        Nat.testBit_lt_two_pow (lt_of_lt_of_le hx (Nat.pow_le_pow_right (by omega) (by omega)))
      have h2 : ¬ (i - k < 64 - k) := by omega
      simp [hxi, h2]
  · simp [hki]

theorem size_of_aligned_eq_div_mul (size k : Nat) (hk : k ≤ 63)
    (h : size + 2 ^ k ≤ 2 ^ 64) :
    size_of_aligned size (2 ^ k) = (size + 2 ^ k - 1) / 2 ^ k * 2 ^ k := by
  have hpos : 1 ≤ 2 ^ k := Nat.one_le_two_pow
  have hxlt : size + (2 ^ k - 1) < 2 ^ 64 := by omega
  have hmodW : (size + (2 ^ k - 1)) % USIZE_MOD = size + (2 ^ k - 1) := by
    have : USIZE_MOD = 2 ^ 64 := rfl
    rw [this]
    exact Nat.mod_eq_of_lt hxlt
  have hmask : USIZE_MOD - 1 - (2 ^ k - 1) = 2 ^ 64 - 2 ^ k := by
    have : USIZE_MOD = 2 ^ 64 := rfl
    omega
  unfold size_of_aligned
  rw [hmodW, hmask, land_high_mask _ k (by omega) hxlt]
  congr 2
  omega

theorem size_of_aligned_le (size k : Nat) (hk : k ≤ 63) (h : size + 2 ^ k ≤ 2 ^ 64) :
    size ≤ size_of_aligned size (2 ^ k) := by
  rw [size_of_aligned_eq_div_mul size k hk h]
  have hpos : 0 < 2 ^ k := Nat.pos_pow_of_pos k (by omega)
  have hdm := Nat.div_add_mod (size + 2 ^ k - 1) (2 ^ k)
  have hml := Nat.mod_lt (size + 2 ^ k - 1) hpos
  have hcomm : (size + 2 ^ k - 1) / 2 ^ k * 2 ^ k =
      2 ^ k * ((size + 2 ^ k - 1) / 2 ^ k) := Nat.mul_comm _ _
  omega

theorem size_of_aligned_lt (size k : Nat) (hk : k ≤ 63) (h : size + 2 ^ k ≤ 2 ^ 64) :
    size_of_aligned size (2 ^ k) < size + 2 ^ k := by
  rw [size_of_aligned_eq_div_mul size k hk h]
  have hpos : 0 < 2 ^ k := Nat.pos_pow_of_pos k (by omega)
  have hle := Nat.div_mul_le_self (size + 2 ^ k - 1) (2 ^ k)
  omega

theorem size_of_aligned_mod (size k : Nat) (hk : k ≤ 63) (h : size + 2 ^ k ≤ 2 ^ 64) :
    size_of_aligned size (2 ^ k) % 2 ^ k = 0 := by
  rw [size_of_aligned_eq_div_mul size k hk h]
  exact Nat.mul_mod_left _ _

/-- Rounding to the pointer width, the form every `zmalloc`/`zrealloc` size
computation takes.  All facts below are stated for sizes that stay clear of
the `usize` wrap-around. -/
theorem round8_eq (s : Nat) (h : s + 8 ≤ USIZE_MOD) :
    size_of_aligned s 8 = (s + 7) / 8 * 8 := by
  have hW : USIZE_MOD = 2 ^ 64 := rfl
  have h2 : s + 2 ^ 3 ≤ 2 ^ 64 := by omega
  calc size_of_aligned s 8 = size_of_aligned s (2 ^ 3) := by norm_num
    _ = (s + 2 ^ 3 - 1) / 2 ^ 3 * 2 ^ 3 := size_of_aligned_eq_div_mul s 3 (by omega) h2
    _ = (s + 7) / 8 * 8 := by norm_num

theorem round8_ge (s : Nat) (h : s + 8 ≤ USIZE_MOD) : s ≤ size_of_aligned s 8 := by
  rw [round8_eq s h]
  have hdm := Nat.div_add_mod (s + 7) 8
  have hml := Nat.mod_lt (s + 7) (y := 8) (by omega)
  have hcomm : (s + 7) / 8 * 8 = 8 * ((s + 7) / 8) := Nat.mul_comm _ _
  omega

theorem round8_lt (s : Nat) (h : s + 8 ≤ USIZE_MOD) : size_of_aligned s 8 < s + 8 := by
  rw [round8_eq s h]
  have hle := Nat.div_mul_le_self (s + 7) 8
  omega

theorem round8_dvd (s : Nat) (h : s + 8 ≤ USIZE_MOD) : 8 ∣ size_of_aligned s 8 := by
  rw [round8_eq s h]
  exact ⟨(s + 7) / 8, Nat.mul_comm _ _⟩

theorem round8_le_bound (s : Nat) (h : s ≤ USIZE_MOD - 16) :
    size_of_aligned s 8 ≤ USIZE_MOD - 16 := by
  have hW : USIZE_MOD = 2 ^ 64 := rfl
  have h1 : s + 8 ≤ USIZE_MOD := by omega
  have h2 := round8_lt s h1
  have h3 := round8_dvd s h1
  omega

/-!
## Raw allocation layer (`alloc.rs`)

The host allocator (`std::alloc`) is abstracted by two oracles: `hostAlloc`
returns the pointer `std::alloc::alloc(layout)` yields (0 encodes a null
return, i.e. failure), and `hostRealloc` the pointer
`std::alloc::realloc(ptr, old_layout, new_size)` yields.  A result of `none`
models `handle_alloc_error`, which aborts the process.  Each function also
returns the list of host-allocator calls it performed, so that "no syscall"
claims are expressible.
-/

/-- A `(size, alignment)` allocation layout. -/
structure Layout where
  size : Nat
  align : Nat
deriving DecidableEq, Repr

/-- One call into the host allocator. -/
inductive HostCall where
  | alloc (l : Layout)
  | realloc (ptr : Nat) (old : Layout) (newSize : Nat)
deriving DecidableEq, Repr

/-- `alloc.rs` `malloc_with_layout`: call the host allocator; abort (`none`)
on a null return. -/
def malloc_with_layout (hostAlloc : Layout → Nat) (layout : Layout) :
    Option (Nat × Nat) × List HostCall :=
  let ptr := hostAlloc layout
  if ptr = 0 then (none, [HostCall.alloc layout])
  else (some (ptr, layout.size), [HostCall.alloc layout])

/-- `alloc.rs` `realloc_with_layout`: if the sizes coincide, return the input
pointer without touching the host allocator; a null input pointer goes through
`std::alloc::alloc(new_layout)`, any other through `std::alloc::realloc`. -/
def realloc_with_layout (hostAlloc : Layout → Nat)
    (hostRealloc : Nat → Layout → Nat → Nat) (ptr : Nat)
    (old_layout new_layout : Layout) : Option (Nat × Nat) × List HostCall :=
  if new_layout.size = old_layout.size then (some (ptr, new_layout.size), [])
  else
    let p := if ptr = 0 then hostAlloc new_layout
             else hostRealloc ptr old_layout new_layout.size
    let call := if ptr = 0 then HostCall.alloc new_layout
                else HostCall.realloc ptr old_layout new_layout.size
    if p = 0 then (none, [call]) else (some (p, new_layout.size), [call])

/-!
## ZMEM tagged allocation (`alloc.rs`)

A ZMEM block is its header word (the stored body size) together with its body
bytes.  `zmalloc n` rounds `n` up to the pointer width, allocates
`ZMEM_HEADER_SIZE` more bytes, stores the rounded body size in the header and
hands out the body.  The fresh body bytes come from the `junk` oracle.  A
`none` result models the unsupported zero-size raw allocation (reachable only
when the size arithmetic wraps) — the source aborts or is undefined there.
-/

/-- A ZMEM-style block: hidden header word plus body bytes. -/
structure ZBlock where
  header : Nat
  body : List Nat
deriving DecidableEq, Repr

/-- `alloc.rs` `zmalloc`: round the size up to the `usize` alignment, allocate
header + body, store the body size in the header, return body and size. -/
def zmalloc (size : Nat) (junk : Nat → Nat) : Option (ZBlock × Nat) :=
  let bsize := size_of_aligned size ZMEM_ALIGN_SIZE
  let msize := (ZMEM_HEADER_SIZE + bsize) % USIZE_MOD
  if msize = 0 then none
  else some ({ header := bsize, body := (List.range bsize).map junk }, bsize)

/-- `alloc.rs` `zmem_size_of`: a null pointer (modelled `none`) maps to size 0,
otherwise the header word is read back. -/
def zmem_size_of (ptr : Option ZBlock) : Nat :=
  match ptr with
  | none => 0
  | some blk => blk.header

/-- Body bytes after the raw block behind `body` is resized to `n` body bytes:
the preserved prefix is the old body, any longer tail is fresh memory from the
`junk` oracle. -/
def extendWith (body : List Nat) (n : Nat) (junk : Nat → Nat) : List Nat :=
  body.take n ++ (List.range (n - body.length)).map (fun i => junk (body.length + i))

/-- `alloc.rs` `zrealloc`: read the old size from the header (0 for a null
pointer), round the new size, resize the raw block through `realloc`, rewrite
the header.  The returned body keeps `min(old, new)` bytes of the old body and
gets fresh `junk` bytes beyond them, the de-facto behaviour of the host
`realloc` the tests rely on. -/
def zrealloc (ptr : Option ZBlock) (new_size : Nat) (junk : Nat → Nat) :
    Option (ZBlock × Nat) :=
  let old_body : List Nat := match ptr with | none => [] | some blk => blk.body
  let new_bsize := size_of_aligned new_size ZMEM_ALIGN_SIZE
  let new_total := (ZMEM_HEADER_SIZE + new_bsize) % USIZE_MOD
  if new_total = 0 then none
  else some ({ header := new_bsize, body := extendWith old_body new_bsize junk },
             new_bsize)

theorem zmalloc_eq (n : Nat) (junk : Nat → Nat) (h : n ≤ USIZE_MOD - 16) :
    zmalloc n junk =
      some ({ header := size_of_aligned n 8,
              body := (List.range (size_of_aligned n 8)).map junk },
            size_of_aligned n 8) := by
  have hW : USIZE_MOD = 2 ^ 64 := rfl
  have hb := round8_le_bound n h
  have hmod : (ZMEM_HEADER_SIZE + size_of_aligned n 8) % USIZE_MOD
      = ZMEM_HEADER_SIZE + size_of_aligned n 8 := by
    apply Nat.mod_eq_of_lt
    have h8 : ZMEM_HEADER_SIZE = 8 := rfl
    omega
  have h8 : ZMEM_HEADER_SIZE = 8 := rfl
  have hz : ZMEM_ALIGN_SIZE = 8 := rfl
  have hne : ¬ (ZMEM_HEADER_SIZE + size_of_aligned n 8 = 0) := by omega
  simp only [zmalloc, hz, hmod, if_neg hne]

theorem extendWith_length (body : List Nat) (n : Nat) (junk : Nat → Nat) :
    (extendWith body n junk).length = n := by
  unfold extendWith
  simp [List.length_take]
  omega

theorem extendWith_of_length_eq (body : List Nat) (junk : Nat → Nat) :
    extendWith body body.length junk = body := by
  unfold extendWith
  simp

theorem extendWith_take (body : List Nat) (n m : Nat) (junk : Nat → Nat)
    (h1 : m ≤ n) (h2 : m ≤ body.length) :
    (extendWith body n junk).take m = body.take m := by
  unfold extendWith
  rw [List.take_append_eq_append_take]
  have hlt : (body.take n).length = min n body.length := List.length_take _ _
  have hm : m - (body.take n).length = 0 := by omega
  rw [hm, List.take_zero, List.append_nil, List.take_take, min_eq_left h1]

theorem zrealloc_eq (cap : Nat) (data : List Nat) (t : Nat) (junk : Nat → Nat)
    (ht : t ≤ USIZE_MOD - 16) :
    zrealloc (some { header := cap, body := data }) t junk =
      some ({ header := size_of_aligned t 8,
              body := extendWith data (size_of_aligned t 8) junk },
            size_of_aligned t 8) := by
  have hW : USIZE_MOD = 2 ^ 64 := rfl
  have hb := round8_le_bound t ht
  have h8 : ZMEM_HEADER_SIZE = 8 := rfl
  have hmod : (ZMEM_HEADER_SIZE + size_of_aligned t 8) % USIZE_MOD
      = ZMEM_HEADER_SIZE + size_of_aligned t 8 := by
    apply Nat.mod_eq_of_lt
    omega
  have hz : ZMEM_ALIGN_SIZE = 8 := rfl
  have hne : ¬ (ZMEM_HEADER_SIZE + size_of_aligned t 8 = 0) := by omega
  simp only [zrealloc, hz, hmod, if_neg hne]

/-!
## The `RString` byte buffer (`rtypes/src/rstring.rs`)

An `RString` is its length, its capacity and the bytes of the ZMEM body it
owns (`data.length = cap` for every buffer the library builds).  The raw
memory primitives of `rmem/src/mem.rs` are modelled on the body byte list:
`mem_copy`/`mem_set` become `writeAt`/`setRange`, which yield `none` when the
source touches memory outside the allocation (undefined behaviour).
-/

/-- Wrapping `usize` subtraction `a - b` for operands below `2 ^ 64`. -/
def wsub (a b : Nat) : Nat :=
  (a + (USIZE_MOD - b % USIZE_MOD)) % USIZE_MOD

/-- `mem_copy(bytes, d + off, bytes.length)` restricted to the allocation `d`:
out-of-bounds writes are undefined behaviour, hence `none`. -/
def writeAt (d : List Nat) (off : Nat) (bytes : List Nat) : Option (List Nat) :=
  if off + bytes.length ≤ d.length then
    some (d.take off ++ bytes ++ d.drop (off + bytes.length))
  else none

/-- `mem_set(d + off, value, count)` restricted to the allocation `d`. -/
def setRange (d : List Nat) (off count value : Nat) : Option (List Nat) :=
  if off + count ≤ d.length then
    some (d.take off ++ List.replicate count value ++ d.drop (off + count))
  else none

/-- The `RString` record: `len`, `cap` and the owned ZMEM body bytes. -/
structure RString where
  len : Nat
  cap : Nat
  data : List Nat
deriving DecidableEq, Repr

namespace RString

/-- `with_capacity`: `zmalloc(capacity)`, length 0. -/
def with_capacity (capacity : Nat) (junk : Nat → Nat) : Option RString :=
  (zmalloc capacity junk).map fun pc => { len := 0, cap := pc.2, data := pc.1.body }

/-- `new()`: `with_capacity(0)`. -/
def new (junk : Nat → Nat) : Option RString :=
  with_capacity 0 junk

/-- `avail() = cap - len` (wrapping `usize` subtraction). -/
def avail (b : RString) : Nat :=
  wsub b.cap b.len

/-- `is_empty()`. -/
def is_empty (b : RString) : Bool :=
  b.len == 0

/-- `is_full() = (avail() == 0)`. -/
def is_full (b : RString) : Bool :=
  avail b == 0

/-- `as_bytes()`: the visible bytes `[0, len)`. -/
def as_bytes (b : RString) : List Nat :=
  b.data.take b.len

/-- `clear()`: drops the length, keeps the storage. -/
def clear (b : RString) : RString :=
  { b with len := 0 }

/-- `truncate(new_len)`: shrink-only. -/
def truncate (b : RString) (new_len : Nat) : RString :=
  if new_len < b.len then { b with len := new_len } else b

/-- `resize(min_capacity)`: `zrealloc` to `max(len, min_capacity)`. -/
def resize (b : RString) (min_capacity : Nat) (junk : Nat → Nat) : Option RString :=
  let target_capacity := max b.len min_capacity
  (zrealloc (some { header := b.cap, body := b.data }) target_capacity junk).map
    fun pc => { len := b.len, cap := pc.2, data := pc.1.body }

/-- `shrink_to(min_capacity)`. -/
def shrink_to (b : RString) (min_capacity : Nat) (junk : Nat → Nat) : Option RString :=
  if min_capacity < b.cap then resize b min_capacity junk else some b

/-- `shrink_to_fit()`. -/
def shrink_to_fit (b : RString) (junk : Nat → Nat) : Option RString :=
  if ¬ (is_full b = true) then resize b b.len junk else some b

/-- `reserve(extra)`: grow to exactly `len + extra` when the spare capacity is
short; the addition wraps as `usize` addition does. -/
def reserve (b : RString) (extra : Nat) (junk : Nat → Nat) : Option RString :=
  if avail b < extra then resize b ((b.len + extra) % USIZE_MOD) junk else some b

/-- `trim(start, end)`: clamp `end` to the length, shift `[start, end)` to the
front (`mem_move` on the body), set the length; otherwise a no-op. -/
def trim (b : RString) (start end_ : Nat) : RString :=
  let e := min b.len end_
  if start < e then
    { b with data := (b.data.drop start).take (e - start) ++ b.data.drop (e - start),
             len := e - start }
  else b

/-- `from_raw_data(data, len)`: `zmalloc(len)` then `mem_copy` the bytes in. -/
def from_raw_data (x : List Nat) (junk : Nat → Nat) : Option RString :=
  (zmalloc x.length junk).bind fun pc =>
    (writeAt pc.1.body 0 x).map fun d => { len := x.length, cap := pc.2, data := d }

/-- `sub_rstr(start, end)`: clamp, then copy `[start, end)` out into a fresh
buffer, or return an empty default buffer. -/
def sub_rstr (b : RString) (start end_ : Nat) (junk : Nat → Nat) : Option RString :=
  let e := min b.len end_
  if start < e then from_raw_data ((b.data.drop start).take (e - start)) junk
  else new junk

/-- `append_raw_data(data, len)`: reserve, copy after the current content,
bump the length. -/
def append_raw_data (b : RString) (x : List Nat) (junk : Nat → Nat) : Option RString :=
  (reserve b x.length junk).bind fun b1 =>
    (writeAt b1.data b1.len x).map fun d =>
      { len := (b1.len + x.length) % USIZE_MOD, cap := b1.cap, data := d }

/-- `copy_raw_data(data, len)`: clear then append. -/
def copy_raw_data (b : RString) (x : List Nat) (junk : Nat → Nat) : Option RString :=
  append_raw_data (clear b) x junk

/-- `append_padding(value, count)`: reserve, `mem_set` the padding, bump the
length. -/
def append_padding (b : RString) (value count : Nat) (junk : Nat → Nat) :
    Option RString :=
  (reserve b count junk).bind fun b1 =>
    (setRange b1.data b1.len count value).map fun d =>
      { len := (b1.len + count) % USIZE_MOD, cap := b1.cap, data := d }

/-- `replace_raw_data(offset, data, len)`: resize to `offset + len`, zero-fill
the gap `[len, offset)` when the old content stops short of `offset`, copy the
bytes at `offset`, set the length to `max(len, offset + len(x))`. -/
def replace_raw_data (b : RString) (offset : Nat) (x : List Nat)
    (junk : Nat → Nat) : Option RString :=
  (resize b ((offset + x.length) % USIZE_MOD) junk).bind fun b1 =>
    (if b1.len < offset then setRange b1.data b1.len (offset - b1.len) 0
     else some b1.data).bind fun d1 =>
      (writeAt d1 offset x).map fun d2 =>
        { len := max b1.len ((offset + x.length) % USIZE_MOD), cap := b1.cap,
          data := d2 }

end RString

/-!
## `to_bytes` and comparison
-/

/-- The observable part of a Rust `Vec<u8>`: its length and its backing
storage; the vector's contents are the first `len` storage bytes. -/
structure RVec where
  len : Nat
  storage : List Nat
deriving DecidableEq, Repr

/-- `Vec::with_capacity(n)`: length 0 over `n` bytes of uninitialised
storage. -/
def RVec.withCapacity (n : Nat) (junk : Nat → Nat) : RVec :=
  { len := 0, storage := (List.range n).map junk }

/-- The list a `Vec<u8>` value denotes. -/
def RVec.toList (v : RVec) : List Nat :=
  v.storage.take v.len

/-- `RString::to_bytes`: `Vec::with_capacity(self.len())`, then
`mem_copy(self.as_ptr(), bytes.as_mut_ptr(), self.len())` into the vector's
storage, and the vector is returned as is — its `len` field is never
updated. -/
def RString.to_bytes (b : RString) (junk : Nat → Nat) : RVec :=
  let bytes := RVec.withCapacity b.len junk
  { bytes with storage := b.data.take b.len ++ bytes.storage.drop b.len }

/-- `mem_cmp(p1, p2, count)` (`libc::memcmp` over `count` bytes).  The source
only ever calls it with `count` at most the length of both operands; the
final catch-all covers the out-of-range reads that never happen there. -/
def memCmp (xs ys : List Nat) (count : Nat) : Ordering :=
  match count, xs, ys with
  | 0, _, _ => Ordering.eq
  | n + 1, x :: xs, y :: ys =>
      if x < y then Ordering.lt
      else if y < x then Ordering.gt
      else memCmp xs ys n
  | _ + 1, _, _ => Ordering.eq

/-- `Ord::cmp` on `usize`. -/
def natCompare (a b : Nat) : Ordering :=
  if a < b then Ordering.lt else if b < a then Ordering.gt else Ordering.eq

/-- `impl PartialEq for RString`: equal lengths and `mem_cmp` equal over
`len` bytes. -/
def RString.beq (a b : RString) : Bool :=
  a.len == b.len && (memCmp a.data b.data a.len == Ordering.eq)

/-- `impl Ord for RString`: `mem_cmp` over the shorter length, lengths break
the tie. -/
def RString.cmp (a b : RString) : Ordering :=
  let clen := min a.len b.len
  match memCmp a.data b.data clen with
  | Ordering.eq => natCompare a.len b.len
  | Ordering.lt => Ordering.lt
  | Ordering.gt => Ordering.gt

/-- Modelled from the spec: "byte-wise lexicographic compare over the shorter
common prefix; if prefixes equal, shorter buffer orders first" — ordinary
lexicographic ordering on the visible byte lists. -/
def specLexCompare : List Nat → List Nat → Ordering
  | [], [] => Ordering.eq
  | [], _ :: _ => Ordering.lt
  | _ :: _, [] => Ordering.gt
  | x :: xs, y :: ys =>
      if x < y then Ordering.lt
      else if y < x then Ordering.gt
      else specLexCompare xs ys

/-- Well-formedness of every buffer the library constructs: the length is
within the capacity, the owned body has exactly `cap` bytes, and the capacity
is a body size a successful ZMEM allocation can report. -/
def WF (b : RString) : Prop :=
  b.len ≤ b.cap ∧ b.data.length = b.cap ∧ b.cap ≤ USIZE_MOD - 16

instance (b : RString) : Decidable (WF b) := by
  unfold WF
  infer_instance

/-!
## Operation-level lemmas
-/

theorem wsub_eq (a b : Nat) (hb : b ≤ a) (ha : a < USIZE_MOD) : wsub a b = a - b := by
  unfold wsub
  have hbW : b % USIZE_MOD = b := Nat.mod_eq_of_lt (by omega)
  rw [hbW]
  have h1 : a + (USIZE_MOD - b) = (a - b) + USIZE_MOD := by
    have hW : USIZE_MOD = 2 ^ 64 := rfl
    omega
  rw [h1, Nat.add_mod_right]
  exact Nat.mod_eq_of_lt (by omega)

theorem avail_eq (b : RString) (hb : WF b) : RString.avail b = b.cap - b.len := by
  obtain ⟨h1, h2, h3⟩ := hb
  have hW : USIZE_MOD = 2 ^ 64 := rfl
  exact wsub_eq b.cap b.len h1 (by omega)

theorem writeAt_eq (d : List Nat) (off : Nat) (bytes : List Nat)
    (h : off + bytes.length ≤ d.length) :
    writeAt d off bytes = some (d.take off ++ bytes ++ d.drop (off + bytes.length)) := by
  simp [writeAt, h]

theorem writeAt_length (d : List Nat) (off : Nat) (bytes : List Nat)
    (h : off + bytes.length ≤ d.length) :
    (d.take off ++ bytes ++ d.drop (off + bytes.length)).length = d.length := by
  simp [List.length_take]
  omega

theorem setRange_eq (d : List Nat) (off count value : Nat)
    (h : off + count ≤ d.length) :
    setRange d off count value =
      some (d.take off ++ List.replicate count value ++ d.drop (off + count)) := by
  simp [setRange, h]

theorem setRange_length (d : List Nat) (off count value : Nat)
    (h : off + count ≤ d.length) :
    (d.take off ++ List.replicate count value ++ d.drop (off + count)).length
      = d.length := by
  simp [List.length_take]
  omega

theorem resize_eq (b : RString) (t : Nat) (junk : Nat → Nat) (hb : WF b)
    (ht : t ≤ USIZE_MOD - 16) :
    RString.resize b t junk =
      some { len := b.len,
             cap := size_of_aligned (max b.len t) 8,
             data := extendWith b.data (size_of_aligned (max b.len t) 8) junk } := by
  obtain ⟨h1, h2, h3⟩ := hb
  have htar : max b.len t ≤ USIZE_MOD - 16 := by omega
  simp only [RString.resize]
  rw [zrealloc_eq b.cap b.data (max b.len t) junk htar]
  rfl

theorem WF_resize (b : RString) (t : Nat) (junk : Nat → Nat) (hb : WF b)
    (ht : t ≤ USIZE_MOD - 16) (b2 : RString)
    (h : RString.resize b t junk = some b2) :
    WF b2 ∧ b2.len = b.len ∧ b2.cap = size_of_aligned (max b.len t) 8 := by
  rw [resize_eq b t junk hb ht] at h
  obtain ⟨h1, h2, h3⟩ := hb
  have htar : max b.len t ≤ USIZE_MOD - 16 := by omega
  have hW : USIZE_MOD = 2 ^ 64 := rfl
  have hge := round8_ge (max b.len t) (by omega)
  have hbd := round8_le_bound (max b.len t) htar
  cases h
  refine ⟨⟨?_, ?_, ?_⟩, rfl, rfl⟩
  · simp only
    omega
  · exact extendWith_length _ _ _
  · exact hbd

theorem reserve_grow_eq (b : RString) (extra : Nat) (junk : Nat → Nat) (hb : WF b)
    (h : b.len + extra ≤ USIZE_MOD - 16) (hlt : RString.avail b < extra) :
    RString.reserve b extra junk =
      some { len := b.len,
             cap := size_of_aligned (b.len + extra) 8,
             data := extendWith b.data (size_of_aligned (b.len + extra) 8) junk } := by
  have hW : USIZE_MOD = 2 ^ 64 := rfl
  have hmod : (b.len + extra) % USIZE_MOD = b.len + extra := Nat.mod_eq_of_lt (by omega)
  have hmax : max b.len ((b.len + extra) % USIZE_MOD) = b.len + extra := by
    rw [hmod]; omega
  unfold RString.reserve
  rw [if_pos hlt, resize_eq b _ junk hb (by rw [hmod]; omega), hmax]

theorem reserve_noop_eq (b : RString) (extra : Nat) (junk : Nat → Nat)
    (hge : ¬ RString.avail b < extra) :
    RString.reserve b extra junk = some b := by
  unfold RString.reserve
  rw [if_neg hge]

theorem reserve_spec (b : RString) (extra : Nat) (junk : Nat → Nat) (hb : WF b)
    (h : b.len + extra ≤ USIZE_MOD - 16) :
    ∃ b2, RString.reserve b extra junk = some b2 ∧ WF b2 ∧ b2.len = b.len ∧
      b.len + extra ≤ b2.cap := by
  have hW : USIZE_MOD = 2 ^ 64 := rfl
  by_cases hlt : RString.avail b < extra
  · refine ⟨_, reserve_grow_eq b extra junk hb h hlt, ?_, rfl, ?_⟩
    · obtain ⟨h1, h2, h3⟩ := hb
      refine ⟨?_, extendWith_length _ _ _, round8_le_bound _ h⟩
      simp only
      have := round8_ge (b.len + extra) (by omega)
      omega
    · simp only
      exact round8_ge (b.len + extra) (by omega)
  · refine ⟨b, reserve_noop_eq b extra junk hlt, hb, rfl, ?_⟩
    rw [avail_eq b hb] at hlt
    obtain ⟨h1, h2, h3⟩ := hb
    omega

theorem append_spec (b : RString) (x : List Nat) (junk : Nat → Nat) (hb : WF b)
    (h : b.len + x.length ≤ USIZE_MOD - 16) :
    ∃ b2, RString.append_raw_data b x junk = some b2 ∧ WF b2 ∧
      b2.len = b.len + x.length := by
  obtain ⟨b1, hres, hwf1, hlen1, hcap1⟩ := reserve_spec b x.length junk hb h
  have hW : USIZE_MOD = 2 ^ 64 := rfl
  obtain ⟨w1, w2, w3⟩ := hwf1
  have hwr : b1.len + x.length ≤ b1.data.length := by omega
  have hmod : (b1.len + x.length) % USIZE_MOD = b1.len + x.length :=
    Nat.mod_eq_of_lt (by omega)
  have happ : RString.append_raw_data b x junk =
      some { len := (b1.len + x.length) % USIZE_MOD, cap := b1.cap,
             data := b1.data.take b1.len ++ x ++ b1.data.drop (b1.len + x.length) } := by
    simp [RString.append_raw_data, hres, writeAt_eq _ _ _ hwr]
  refine ⟨_, happ, ⟨?_, ?_, w3⟩, ?_⟩
  · simp only [hmod]
    omega
  · simp only
    rw [writeAt_length _ _ _ hwr, w2]
  · simp only [hmod]
    omega

theorem take_write (d : List Nat) (off : Nat) (x : List Nat) (h : off ≤ d.length) :
    (d.take off ++ x ++ d.drop (off + x.length)).take (off + x.length)
      = d.take off ++ x := by
  have hA : (d.take off ++ x).length = off + x.length := by
    simp [List.length_take]
    omega
  exact List.take_left' hA

theorem padding_spec (b : RString) (value count : Nat) (junk : Nat → Nat)
    (hb : WF b) (h : b.len + count ≤ USIZE_MOD - 16) :
    ∃ b2, RString.append_padding b value count junk = some b2 ∧ WF b2 ∧
      b2.len = b.len + count := by
  obtain ⟨b1, hres, hwf1, hlen1, hcap1⟩ := reserve_spec b count junk hb h
  have hW : USIZE_MOD = 2 ^ 64 := rfl
  obtain ⟨w1, w2, w3⟩ := hwf1
  have hwr : b1.len + count ≤ b1.data.length := by omega
  have hmod : (b1.len + count) % USIZE_MOD = b1.len + count :=
    Nat.mod_eq_of_lt (by omega)
  have happ : RString.append_padding b value count junk =
      some { len := (b1.len + count) % USIZE_MOD, cap := b1.cap,
             data := b1.data.take b1.len ++ List.replicate count value
               ++ b1.data.drop (b1.len + count) } := by
    simp [RString.append_padding, hres, setRange_eq _ _ _ _ hwr]
  refine ⟨_, happ, ⟨?_, ?_, w3⟩, ?_⟩
  · simp only [hmod]
    omega
  · simp only
    rw [setRange_length _ _ _ _ hwr, w2]
  · simp only [hmod]
    omega

theorem from_raw_spec (x : List Nat) (junk : Nat → Nat)
    (h : x.length ≤ USIZE_MOD - 16) :
    ∃ b2, RString.from_raw_data x junk = some b2 ∧ WF b2 ∧
      b2.len = x.length ∧ RString.as_bytes b2 = x := by
  have hW : USIZE_MOD = 2 ^ 64 := rfl
  have hge := round8_ge x.length (by omega)
  have hbody : ((List.range (size_of_aligned x.length 8)).map junk).length
      = size_of_aligned x.length 8 := by simp
  have hwr : 0 + x.length ≤ ((List.range (size_of_aligned x.length 8)).map junk).length := by
    rw [hbody]; omega
  have heq : RString.from_raw_data x junk =
      some { len := x.length, cap := size_of_aligned x.length 8,
             data := ((List.range (size_of_aligned x.length 8)).map junk).take 0 ++ x
               ++ ((List.range (size_of_aligned x.length 8)).map junk).drop (0 + x.length) } := by
    simp only [RString.from_raw_data, zmalloc_eq x.length junk h, Option.some_bind]
    rw [writeAt_eq _ _ _ hwr]
    rfl
  refine ⟨_, heq, ⟨?_, ?_, round8_le_bound _ h⟩, rfl, ?_⟩
  · simp only
    omega
  · simp only
    rw [writeAt_length _ _ _ hwr, hbody]
  · show (((List.range (size_of_aligned x.length 8)).map junk).take 0 ++ x
      ++ ((List.range (size_of_aligned x.length 8)).map junk).drop (0 + x.length)).take
        x.length = x
    rw [List.take_zero, List.nil_append, List.take_left]


theorem setRange_fill (d : List Nat) (L off : Nat) (h : off ≤ d.length) (hL : L ≤ off) :
    setRange d L (off - L) 0
      = some (d.take L ++ List.replicate (off - L) 0 ++ d.drop off) := by
  have hb : L + (off - L) ≤ d.length := by omega
  rw [setRange_eq _ _ _ _ hb]
  have he : L + (off - L) = off := by omega
  rw [he]

theorem fill_length (d : List Nat) (L off : Nat) (h : off ≤ d.length) (hL : L ≤ off) :
    (d.take L ++ List.replicate (off - L) 0 ++ d.drop off).length = d.length := by
  simp [List.length_take]
  omega

theorem take_fill (d : List Nat) (L off : Nat) (h : off ≤ d.length) (hL : L ≤ off) :
    (d.take L ++ List.replicate (off - L) 0 ++ d.drop off).take off
      = d.take L ++ List.replicate (off - L) 0 := by
  have htw := take_write d L (List.replicate (off - L) (0 : Nat)) (by omega)
  rw [List.length_replicate] at htw
  have he : L + (off - L) = off := by omega
  rw [he] at htw
  exact htw

theorem replace_spec (b : RString) (off : Nat) (x : List Nat) (junk : Nat → Nat)
    (hb : WF b) (h : off + x.length ≤ USIZE_MOD - 16) :
    ∃ b2, RString.replace_raw_data b off x junk = some b2 ∧ WF b2 ∧
      b2.cap = size_of_aligned (max b.len (off + x.length)) 8 ∧
      b2.len = max b.len (off + x.length) ∧
      (b.len ≤ off →
        RString.as_bytes b2 =
          RString.as_bytes b ++ List.replicate (off - b.len) 0 ++ x) := by
  obtain ⟨h1, h2, h3⟩ := hb
  have hW : USIZE_MOD = 2 ^ 64 := rfl
  have hmod : (off + x.length) % USIZE_MOD = off + x.length :=
    Nat.mod_eq_of_lt (by omega)
  have htgt : max b.len (off + x.length) ≤ USIZE_MOD - 16 := by omega
  have hres := resize_eq b ((off + x.length) % USIZE_MOD) junk ⟨h1, h2, h3⟩
    (by rw [hmod]; omega)
  rw [hmod] at hres
  set C := size_of_aligned (max b.len (off + x.length)) 8 with hCdef
  set D := extendWith b.data C junk with hDdef
  have hCge : max b.len (off + x.length) ≤ C := round8_ge _ (by omega)
  have hCbd : C ≤ USIZE_MOD - 16 := round8_le_bound _ htgt
  have hDlen : D.length = C := extendWith_length _ _ _
  by_cases hoff : b.len < off
  · -- gap case: [len, off) is zero-filled by the mem_set
    have hset := setRange_fill D b.len off (by omega) (by omega)
    set d1 := D.take b.len ++ List.replicate (off - b.len) 0 ++ D.drop off with hd1def
    have hd1len : d1.length = C := by
      rw [hd1def, fill_length D b.len off (by omega) (by omega), hDlen]
    have hwrb : off + x.length ≤ d1.length := by omega
    have hwr := writeAt_eq d1 off x hwrb
    set d2 := d1.take off ++ x ++ d1.drop (off + x.length) with hd2def
    have hd2len : d2.length = C := by
      rw [hd2def, writeAt_length d1 off x hwrb, hd1len]
    have heq : RString.replace_raw_data b off x junk =
        some { len := max b.len (off + x.length), cap := C, data := d2 } := by
      simp only [RString.replace_raw_data, hres, Option.some_bind, hmod]
      rw [if_pos hoff, hset, Option.some_bind, hwr]
      rfl
    refine ⟨_, heq, ⟨?_, ?_, hCbd⟩, rfl, rfl, ?_⟩
    · simp only
      omega
    · simp only
      exact hd2len
    · intro _
      show d2.take (max b.len (off + x.length)) = _
      have hmax : max b.len (off + x.length) = off + x.length := by omega
      rw [hmax, hd2def, take_write d1 off x (by omega), hd1def,
        take_fill D b.len off (by omega) (by omega), hDdef,
        extendWith_take b.data C b.len junk (by omega) (by omega)]
      rfl
  · -- no gap: the old content reaches the offset
    have hwrb : off + x.length ≤ D.length := by omega
    have hwr := writeAt_eq D off x hwrb
    set d2 := D.take off ++ x ++ D.drop (off + x.length) with hd2def
    have hd2len : d2.length = C := by
      rw [hd2def, writeAt_length D off x hwrb, hDlen]
    have heq : RString.replace_raw_data b off x junk =
        some { len := max b.len (off + x.length), cap := C, data := d2 } := by
      simp only [RString.replace_raw_data, hres, Option.some_bind, hmod]
      rw [if_neg hoff, Option.some_bind, hwr]
      rfl
    refine ⟨_, heq, ⟨?_, ?_, hCbd⟩, rfl, rfl, ?_⟩
    · simp only
      omega
    · simp only
      exact hd2len
    · intro hle
      have hoffL : off = b.len := by omega
      show d2.take (max b.len (off + x.length)) = _
      have hmax : max b.len (off + x.length) = off + x.length := by omega
      have hrep : off - b.len = 0 := by omega
      rw [hmax, hd2def, take_write D off x (by omega), hDdef,
        extendWith_take b.data C off junk (by omega) (by omega), hrep]
      simp [RString.as_bytes, hoffL]

/-!
## Comparison lemmas
-/

theorem memCmp_self (xs : List Nat) (n : Nat) : memCmp xs xs n = Ordering.eq := by
  induction xs generalizing n with
  | nil => cases n <;> rfl
  | cons a xs ih =>
    cases n with
    | zero => rfl
    | succ n => simp [memCmp, ih]

theorem natCompare_succ (a b : Nat) : natCompare (a + 1) (b + 1) = natCompare a b := by
  unfold natCompare
  simp [Nat.succ_lt_succ_iff]

theorem natCompare_eq_iff (a b : Nat) : natCompare a b = Ordering.eq ↔ a = b := by
  unfold natCompare
  split
  · constructor
    · intro h
      cases h
    · omega
  · split
    · constructor
      · intro h
        cases h
      · omega
    · constructor
      · intro _
        omega
      · intro _
        rfl

theorem memCmp_lex (xs : List Nat) : ∀ (ys : List Nat) (la lb : Nat),
    la ≤ xs.length → lb ≤ ys.length →
    (match memCmp xs ys (min la lb) with
     | Ordering.eq => natCompare la lb
     | Ordering.lt => Ordering.lt
     | Ordering.gt => Ordering.gt) = specLexCompare (xs.take la) (ys.take lb) := by
  induction xs with
  | nil =>
    intro ys la lb hla hlb
    have hla0 : la = 0 := by simp at hla; omega
    subst hla0
    rw [Nat.zero_min]
    cases lb with
    | zero => rfl
    | succ lb2 =>
      cases ys with
      | nil => simp at hlb
      | cons y ys2 => simp [memCmp, natCompare, specLexCompare]
  | cons x xs ih =>
    intro ys la lb hla hlb
    cases la with
    | zero =>
      rw [Nat.zero_min]
      cases lb with
      | zero => rfl
      | succ lb2 =>
        cases ys with
        | nil => simp at hlb
        | cons y ys2 => simp [memCmp, natCompare, specLexCompare]
    | succ la2 =>
      cases ys with
      | nil =>
        have hlb0 : lb = 0 := by simp at hlb; omega
        subst hlb0
        simp [memCmp, natCompare, specLexCompare]
      | cons y ys2 =>
        cases lb with
        | zero => simp [memCmp, natCompare, specLexCompare]
        | succ lb2 =>
          rw [Nat.succ_min_succ]
          show (match (if x < y then Ordering.lt
                       else if y < x then Ordering.gt
                       else memCmp xs ys2 (min la2 lb2)) with
                | Ordering.eq => natCompare (la2 + 1) (lb2 + 1)
                | Ordering.lt => Ordering.lt
                | Ordering.gt => Ordering.gt)
              = specLexCompare (x :: xs.take la2) (y :: ys2.take lb2)
          by_cases hxy : x < y
          · simp [specLexCompare, hxy]
          · by_cases hyx : y < x
            · simp [specLexCompare, hxy, hyx]
            · simp only [if_neg hxy, if_neg hyx, specLexCompare, natCompare_succ]
              exact ih ys2 la2 lb2 (by simp at hla; omega) (by simp at hlb; omega)

theorem memCmp_eq_iff (n : Nat) : ∀ (xs ys : List Nat),
    n ≤ xs.length → n ≤ ys.length →
    (memCmp xs ys n = Ordering.eq ↔ xs.take n = ys.take n) := by
  induction n with
  | zero =>
    intro xs ys _ _
    simp [memCmp]
  | succ n ih =>
    intro xs ys hx hy
    cases xs with
    | nil => simp at hx
    | cons x xs2 =>
      cases ys with
      | nil => simp at hy
      | cons y ys2 =>
        show ((if x < y then Ordering.lt
               else if y < x then Ordering.gt
               else memCmp xs2 ys2 n) = Ordering.eq
              ↔ x :: xs2.take n = y :: ys2.take n)
        by_cases hxy : x < y
        · simp [hxy]
          omega
        · by_cases hyx : y < x
          · simp [hxy, hyx]
            omega
          · have hxyeq : x = y := by omega
            subst hxyeq
            simp only [if_neg hxy, if_neg hyx, List.cons.injEq, true_and]
            exact ih xs2 ys2 (by simp at hx; omega) (by simp at hy; omega)

/-!
## Remaining well-formedness lemmas and the operation dispatcher
-/

theorem new_eq (junk : Nat → Nat) :
    RString.new junk = some { len := 0, cap := 0, data := [] } := by
  have hz : size_of_aligned 0 8 = 0 := by decide
  have hW : USIZE_MOD = 2 ^ 64 := rfl
  simp only [RString.new, RString.with_capacity, zmalloc_eq 0 junk (by omega), hz]
  rfl

theorem WF_empty : WF { len := 0, cap := 0, data := [] } := by
  refine ⟨Nat.le_refl 0, rfl, ?_⟩
  show (0 : Nat) ≤ USIZE_MOD - 16
  have hW : USIZE_MOD = 2 ^ 64 := rfl
  omega

theorem with_capacity_spec (n : Nat) (junk : Nat → Nat) (h : n ≤ USIZE_MOD - 16) :
    ∃ b2, RString.with_capacity n junk = some b2 ∧ WF b2 ∧ b2.len = 0 ∧
      b2.cap = size_of_aligned n 8 := by
  have hW : USIZE_MOD = 2 ^ 64 := rfl
  have heq : RString.with_capacity n junk =
      some { len := 0, cap := size_of_aligned n 8,
             data := (List.range (size_of_aligned n 8)).map junk } := by
    simp only [RString.with_capacity, zmalloc_eq n junk h]
    rfl
  refine ⟨_, heq, ⟨Nat.zero_le _, ?_, round8_le_bound n h⟩, rfl, rfl⟩
  simp

theorem WF_clear (b : RString) (hb : WF b) : WF (RString.clear b) := by
  obtain ⟨h1, h2, h3⟩ := hb
  exact ⟨Nat.zero_le _, h2, h3⟩

theorem WF_truncate (b : RString) (n : Nat) (hb : WF b) : WF (RString.truncate b n) := by
  obtain ⟨h1, h2, h3⟩ := hb
  unfold RString.truncate
  split
  · exact ⟨by simp only; omega, h2, h3⟩
  · exact ⟨h1, h2, h3⟩

theorem WF_trim (b : RString) (s e : Nat) (hb : WF b) : WF (RString.trim b s e) := by
  obtain ⟨h1, h2, h3⟩ := hb
  simp only [RString.trim]
  split
  · refine ⟨?_, ?_, h3⟩
    · simp only
      omega
    · simp only [List.length_append, List.length_take, List.length_drop]
      omega
  · exact ⟨h1, h2, h3⟩

theorem shrink_to_spec (b : RString) (m : Nat) (junk : Nat → Nat) (hb : WF b) :
    ∃ b2, RString.shrink_to b m junk = some b2 ∧ WF b2 := by
  have hW : USIZE_MOD = 2 ^ 64 := rfl
  obtain ⟨h1, h2, h3⟩ := hb
  unfold RString.shrink_to
  split
  · have hm : m ≤ USIZE_MOD - 16 := by omega
    refine ⟨_, resize_eq b m junk ⟨h1, h2, h3⟩ hm, ?_⟩
    exact (WF_resize b m junk ⟨h1, h2, h3⟩ hm _ (resize_eq b m junk ⟨h1, h2, h3⟩ hm)).1
  · exact ⟨b, rfl, h1, h2, h3⟩

theorem shrink_to_fit_spec (b : RString) (junk : Nat → Nat) (hb : WF b) :
    ∃ b2, RString.shrink_to_fit b junk = some b2 ∧ WF b2 := by
  obtain ⟨h1, h2, h3⟩ := hb
  unfold RString.shrink_to_fit
  split
  · refine ⟨_, resize_eq b b.len junk ⟨h1, h2, h3⟩ (by omega), ?_⟩
    exact (WF_resize b b.len junk ⟨h1, h2, h3⟩ (by omega) _
      (resize_eq b b.len junk ⟨h1, h2, h3⟩ (by omega))).1
  · exact ⟨b, rfl, h1, h2, h3⟩

theorem sub_rstr_spec (b : RString) (s e : Nat) (junk : Nat → Nat) (hb : WF b) :
    ∃ b2, RString.sub_rstr b s e junk = some b2 ∧ WF b2 := by
  obtain ⟨h1, h2, h3⟩ := hb
  simp only [RString.sub_rstr]
  split
  · have hlen : ((b.data.drop s).take (min b.len e - s)).length ≤ USIZE_MOD - 16 := by
      simp only [List.length_take, List.length_drop]
      omega
    obtain ⟨b2, heq, hwf, _, _⟩ := from_raw_spec _ junk hlen
    exact ⟨b2, heq, hwf⟩
  · exact ⟨_, new_eq junk, WF_empty⟩

theorem copy_spec (b : RString) (x : List Nat) (junk : Nat → Nat) (hb : WF b)
    (h : x.length ≤ USIZE_MOD - 16) :
    ∃ b2, RString.copy_raw_data b x junk = some b2 ∧ WF b2 ∧ b2.len = x.length := by
  obtain ⟨b2, heq, hwf, hlen⟩ :=
    append_spec (RString.clear b) x junk (WF_clear b hb)
      (by simpa [RString.clear] using h)
  exact ⟨b2, heq, hwf, by simpa [RString.clear] using hlen⟩

/-- The `ByteBuffer` operations of the public contract, as one dispatchable
syntax so that a single statement can quantify over all of them. -/
inductive RStringOp where
  | opNew
  | opWithCapacity (n : Nat)
  | opAppend (x : List Nat)
  | opCopy (x : List Nat)
  | opReplace (off : Nat) (x : List Nat)
  | opAppendPadding (value count : Nat)
  | opTrim (start fin : Nat)
  | opTruncate (n : Nat)
  | opClear
  | opReserve (extra : Nat)
  | opShrinkTo (m : Nat)
  | opShrinkToFit
  | opSubRange (start fin : Nat)

/-- Run one public operation: `opNew`/`opWithCapacity`/`opSubRange` produce a
buffer, the others mutate `b` in place. -/
def applyOp (b : RString) (op : RStringOp) (junk : Nat → Nat) : Option RString :=
  match op with
  | RStringOp.opNew => RString.new junk
  | RStringOp.opWithCapacity n => RString.with_capacity n junk
  | RStringOp.opAppend x => RString.append_raw_data b x junk
  | RStringOp.opCopy x => RString.copy_raw_data b x junk
  | RStringOp.opReplace off x => RString.replace_raw_data b off x junk
  | RStringOp.opAppendPadding value count => RString.append_padding b value count junk
  | RStringOp.opTrim start fin => some (RString.trim b start fin)
  | RStringOp.opTruncate n => some (RString.truncate b n)
  | RStringOp.opClear => some (RString.clear b)
  | RStringOp.opReserve extra => RString.reserve b extra junk
  | RStringOp.opShrinkTo m => RString.shrink_to b m junk
  | RStringOp.opShrinkToFit => RString.shrink_to_fit b junk
  | RStringOp.opSubRange start fin => RString.sub_rstr b start fin junk

/-- The size arithmetic of the call stays below the `usize` wrap-around
(always satisfiable in a real process, where sizes are bounded by the address
space). -/
def opInRange (b : RString) (op : RStringOp) : Prop :=
  match op with
  | RStringOp.opWithCapacity n => n ≤ USIZE_MOD - 16
  | RStringOp.opAppend x => b.len + x.length ≤ USIZE_MOD - 16
  | RStringOp.opCopy x => x.length ≤ USIZE_MOD - 16
  | RStringOp.opReplace off x => off + x.length ≤ USIZE_MOD - 16
  | RStringOp.opAppendPadding _ count => b.len + count ≤ USIZE_MOD - 16
  | RStringOp.opReserve extra => b.len + extra ≤ USIZE_MOD - 16
  | _ => True

instance (b : RString) (op : RStringOp) : Decidable (opInRange b op) := by
  cases op <;> simp only [opInRange] <;> infer_instance

theorem WF_applyOp (b : RString) (op : RStringOp) (junk : Nat → Nat) (b2 : RString)
    (hb : WF b) (hr : opInRange b op) (h : applyOp b op junk = some b2) : WF b2 := by
  cases op with
  | opNew =>
    rw [applyOp, new_eq junk] at h
    injection h with h
    rw [← h]
    exact WF_empty
  | opWithCapacity n =>
    obtain ⟨b3, heq, hwf, _, _⟩ := with_capacity_spec n junk hr
    rw [applyOp, heq] at h
    injection h with h
    rw [← h]
    exact hwf
  | opAppend x =>
    obtain ⟨b3, heq, hwf, _⟩ := append_spec b x junk hb hr
    rw [applyOp, heq] at h
    injection h with h
    rw [← h]
    exact hwf
  | opCopy x =>
    obtain ⟨b3, heq, hwf, _⟩ := copy_spec b x junk hb hr
    rw [applyOp, heq] at h
    injection h with h
    rw [← h]
    exact hwf
  | opReplace off x =>
    obtain ⟨b3, heq, hwf, _, _, _⟩ := replace_spec b off x junk hb hr
    rw [applyOp, heq] at h
    injection h with h
    rw [← h]
    exact hwf
  | opAppendPadding value count =>
    obtain ⟨b3, heq, hwf, _⟩ := padding_spec b value count junk hb hr
    rw [applyOp, heq] at h
    injection h with h
    rw [← h]
    exact hwf
  | opTrim start fin =>
    rw [applyOp] at h
    injection h with h
    rw [← h]
    exact WF_trim b start fin hb
  | opTruncate n =>
    rw [applyOp] at h
    injection h with h
    rw [← h]
    exact WF_truncate b n hb
  | opClear =>
    rw [applyOp] at h
    injection h with h
    rw [← h]
    exact WF_clear b hb
  | opReserve extra =>
    obtain ⟨b3, heq, hwf, _, _⟩ := reserve_spec b extra junk hb hr
    rw [applyOp, heq] at h
    injection h with h
    rw [← h]
    exact hwf
  | opShrinkTo m =>
    obtain ⟨b3, heq, hwf⟩ := shrink_to_spec b m junk hb
    rw [applyOp, heq] at h
    injection h with h
    rw [← h]
    exact hwf
  | opShrinkToFit =>
    obtain ⟨b3, heq, hwf⟩ := shrink_to_fit_spec b junk hb
    rw [applyOp, heq] at h
    injection h with h
    rw [← h]
    exact hwf
  | opSubRange start fin =>
    obtain ⟨b3, heq, hwf⟩ := sub_rstr_spec b start fin junk hb
    rw [applyOp, heq] at h
    injection h with h
    rw [← h]
    exact hwf

/-!
## Concrete fixtures used by witnesses and counterexamples
-/

/-- A fixed junk-byte oracle: every fresh allocation byte reads `170`. -/
def junk0 : Nat → Nat := fun _ => 170

/-- `from_bytes(b"Hi")` built with `junk0`: length 2, capacity 8. -/
def hiBuf : RString :=
  { len := 2, cap := 8, data := [72, 105, 170, 170, 170, 170, 170, 170] }

/-- A 5-byte buffer with capacity 8 (as built by `from_bytes(&[1,2,3,4,5])`). -/
def fiveBuf : RString :=
  { len := 5, cap := 8, data := [1, 2, 3, 4, 5, 170, 170, 170] }

/-- A 4-byte buffer with capacity 8. -/
def fourBuf : RString :=
  { len := 4, cap := 8, data := [1, 2, 3, 4, 170, 170, 170, 170] }

/-- An empty buffer with capacity 16 (as built by `with_capacity(16)`). -/
def wideBuf : RString :=
  { len := 0, cap := 16, data := List.replicate 16 170 }

/-- A host allocator oracle that always hands out pointer 100. -/
def hostAllocC : Layout → Nat := fun _ => 100

/-- A host reallocator oracle that always hands out pointer 200. -/
def hostReallocC : Nat → Layout → Nat → Nat := fun _ _ _ => 200

/-!
## Claim theorems
-/

/-- Claim C1: the round trip `from_bytes(b).to_bytes() == b` fails on the
code: `to_bytes` copies the bytes into the spare capacity of a
`Vec::with_capacity(len)` but never updates the vector's length, so the
returned vector is empty.  Evaluated at `b = b"Hi"`: the buffer is built
correctly, yet `to_bytes` denotes `[]`, not `[72, 105]`. -/
theorem c1_to_bytes_returns_empty :
    RString.from_raw_data [72, 105] junk0 = some hiBuf ∧
    (RString.to_bytes hiBuf junk0).toList = [] ∧
    ([] : List Nat) ≠ [72, 105] := by
  refine ⟨by decide, by decide, by decide⟩

/-- Claim C2, counterexample to the unbounded statement: at
`n = 2 ^ 64 - 1` the rounding wraps, `zmalloc` succeeds with reported size 0,
and `s ≥ n` fails. -/
theorem c2_counterexample :
    zmalloc (2 ^ 64 - 1) junk0 = some ({ header := 0, body := [] }, 0) ∧
    ¬ (2 ^ 64 - 1 ≤ 0) := by
  refine ⟨by decide, by decide⟩

/-- Claim C2 (amended with the no-wrap bound `n ≤ 2 ^ 64 - 16`): `zmalloc n`
returns a block and size `s` with `zmem_size_of` recovering exactly `s`, `s` a
multiple of the native pointer width, and `s ≥ n`. -/
theorem c2_zmalloc_tagged_size (n : Nat) (junk : Nat → Nat)
    (h : n ≤ USIZE_MOD - 16) :
    ∃ blk s, zmalloc n junk = some (blk, s) ∧
      zmem_size_of (some blk) = s ∧ ZMEM_ALIGN_SIZE ∣ s ∧ n ≤ s := by
  have hW : USIZE_MOD = 2 ^ 64 := rfl
  refine ⟨_, _, zmalloc_eq n junk h, rfl, ?_, round8_ge n (by omega)⟩
  have hz : ZMEM_ALIGN_SIZE = 8 := rfl
  rw [hz]
  exact round8_dvd n (by omega)

/-- Witness for C2 at `n = 6` (the spec's own scenario: reported size 8). -/
theorem c2_witness :
    (6 ≤ USIZE_MOD - 16) ∧
    ∃ blk s, zmalloc 6 junk0 = some (blk, s) ∧
      zmem_size_of (some blk) = s ∧ ZMEM_ALIGN_SIZE ∣ s ∧ 6 ≤ s :=
  ⟨by decide, c2_zmalloc_tagged_size 6 junk0 (by decide)⟩

/-- Claim C3, counterexample to the unbounded statement: at
`size = 2 ^ 64 - 1`, `align = 8 = 2 ^ 3`, the sum wraps and the result 0 is
not `≥ size`. -/
theorem c3_counterexample :
    size_of_aligned (2 ^ 64 - 1) 8 = 0 ∧ (8 : Nat) = 2 ^ 3 ∧
    ¬ (2 ^ 64 - 1 ≤ 0) := by
  refine ⟨by decide, by decide, by decide⟩

/-- Claim C3 (amended with the no-overflow bound `size + align ≤ 2 ^ 64`):
for a power-of-two `align`, `size_of_aligned` is divisible by `align`, at
least `size`, and below `size + align`. -/
theorem c3_size_of_aligned_bounds (size k : Nat) (hk : k ≤ 63)
    (h : size + 2 ^ k ≤ USIZE_MOD) :
    size_of_aligned size (2 ^ k) % 2 ^ k = 0 ∧
    size ≤ size_of_aligned size (2 ^ k) ∧
    size_of_aligned size (2 ^ k) < size + 2 ^ k := by
  have hW : USIZE_MOD = 2 ^ 64 := rfl
  exact ⟨size_of_aligned_mod size k hk (by omega),
    size_of_aligned_le size k hk (by omega),
    size_of_aligned_lt size k hk (by omega)⟩

/-- Witness for C3 at `size = 5`, `align = 4` (the spec's scenario
`size_of_aligned(5, 4) == 8`). -/
theorem c3_witness :
    (2 ≤ 63 ∧ 5 + 2 ^ 2 ≤ USIZE_MOD) ∧
    (size_of_aligned 5 (2 ^ 2) % 2 ^ 2 = 0 ∧ 5 ≤ size_of_aligned 5 (2 ^ 2) ∧
     size_of_aligned 5 (2 ^ 2) < 5 + 2 ^ 2) :=
  ⟨⟨by decide, by decide⟩, c3_size_of_aligned_bounds 5 2 (by decide) (by decide)⟩

/-- Claim C4, counterexample: a null pointer with equal old/new layout sizes
takes the size-equality shortcut first, so `reallocate` hands back the null
pointer with no host call instead of behaving as `allocate` — `allocate`
would have returned the fresh pointer 100. -/
theorem c4_counterexample :
    realloc_with_layout hostAllocC hostReallocC 0 { size := 8, align := 1 }
        { size := 8, align := 1 } = (some (0, 8), []) ∧
    malloc_with_layout hostAllocC { size := 8, align := 1 }
      = (some (100, 8), [HostCall.alloc { size := 8, align := 1 }]) := by
  refine ⟨by decide, by decide⟩

/-- Claim C4 (amended: the null-pointer clause additionally requires the two
sizes to differ, since the size-equality shortcut is checked first): equal
sizes return the input pointer with no host-allocator call; a null pointer
with a different new size behaves exactly as `allocate(new_layout)`. -/
theorem c4_realloc_contract (hostAlloc : Layout → Nat)
    (hostRealloc : Nat → Layout → Nat → Nat) (ptr : Nat)
    (old_layout new_layout : Layout) :
    (new_layout.size = old_layout.size →
      realloc_with_layout hostAlloc hostRealloc ptr old_layout new_layout
        = (some (ptr, new_layout.size), [])) ∧
    (ptr = 0 → new_layout.size ≠ old_layout.size →
      realloc_with_layout hostAlloc hostRealloc ptr old_layout new_layout
        = malloc_with_layout hostAlloc new_layout) := by
  constructor
  · intro he
    simp [realloc_with_layout, he]
  · intro hp hne
    subst hp
    simp only [realloc_with_layout, malloc_with_layout, if_neg hne]
    simp

/-- Witness for C4: the size-equality shortcut at pointer 7, and the
null-pointer path at differing sizes (the `zrealloc`-from-null situation). -/
theorem c4_witness :
    (realloc_with_layout hostAllocC hostReallocC 7 { size := 8, align := 1 }
        { size := 8, align := 1 } = (some (7, 8), [])) ∧
    (realloc_with_layout hostAllocC hostReallocC 0 { size := 0, align := 1 }
        { size := 8, align := 1 }
      = malloc_with_layout hostAllocC { size := 8, align := 1 }) :=
  ⟨(c4_realloc_contract hostAllocC hostReallocC 7 _ _).1 rfl,
   (c4_realloc_contract hostAllocC hostReallocC 0 _ _).2 rfl (by decide)⟩

/-- Claim C5, counterexample to the unbounded statement: on the `"Hi"` buffer
with `offset = 2 ^ 64 - 1` and one byte, `offset + len(x)` wraps to 0, the
buffer is resized to 8 bytes, and the gap `mem_set` of `2 ^ 64 - 3` bytes
runs outside the allocation: the call has no defined resulting buffer, so no
final length `max(L, offset + len(x))` is produced. -/
theorem c5_counterexample :
    RString.replace_raw_data hiBuf (2 ^ 64 - 1) [88] junk0 = none := by
  decide

/-- Claim C5 (amended with the no-wrap bound
`offset + len(x) ≤ 2 ^ 64 - 16`): `replace_at` grows the capacity to at least
`offset + len(x)`, zero-fills the gap `[len, offset)` when `offset > len`,
and sets the length to `max(len, offset + len(x))`; with the gap written out,
a buffer holding `"Hi"` after `replace_at(5, "X")` holds `"Hi\x00\x00\x00X"`. -/
theorem c5_replace_at (b : RString) (off : Nat) (x : List Nat)
    (junk : Nat → Nat) (hb : WF b) (h : off + x.length ≤ USIZE_MOD - 16) :
    ∃ b2, RString.replace_raw_data b off x junk = some b2 ∧
      off + x.length ≤ b2.cap ∧
      b2.len = max b.len (off + x.length) ∧
      (b.len ≤ off →
        RString.as_bytes b2
          = RString.as_bytes b ++ List.replicate (off - b.len) 0 ++ x) := by
  obtain ⟨b2, heq, hwf, hcap, hlen, hbytes⟩ := replace_spec b off x junk hb h
  obtain ⟨w1, w2, w3⟩ := hb
  have hW : USIZE_MOD = 2 ^ 64 := rfl
  refine ⟨b2, heq, ?_, hlen, hbytes⟩
  rw [hcap]
  have hge := round8_ge (max b.len (off + x.length)) (by omega)
  omega

/-- Witness for C5 at the spec's own scenario:
`from_bytes(b"Hi").replace_at(5, b"X")` yields the bytes `Hi\x00\x00\x00X`. -/
theorem c5_witness :
    (WF hiBuf ∧ 5 + List.length [88] ≤ USIZE_MOD - 16) ∧
    (∃ b2, RString.replace_raw_data hiBuf 5 [88] junk0 = some b2 ∧
      5 + List.length [88] ≤ b2.cap ∧
      b2.len = max hiBuf.len (5 + List.length [88]) ∧
      (hiBuf.len ≤ 5 →
        RString.as_bytes b2
          = RString.as_bytes hiBuf ++ List.replicate (5 - hiBuf.len) 0 ++ [88])) ∧
    (RString.replace_raw_data hiBuf 5 [88] junk0).map RString.as_bytes
      = some [72, 105, 0, 0, 0, 88] :=
  ⟨⟨by decide, by decide⟩, c5_replace_at hiBuf 5 [88] junk0 (by decide) (by decide),
   by decide⟩

/-- Claim C6, counterexample to the unbounded statement: on a length-5
buffer of capacity 8, `reserve(2 ^ 64 - 6)` wraps `len + extra` to
`2 ^ 64 - 1`, whose rounding wraps to capacity 0 — not a capacity of exactly
`len + extra` rounded up. -/
theorem c6_counterexample :
    RString.avail fiveBuf < 2 ^ 64 - 6 ∧
    RString.reserve fiveBuf (2 ^ 64 - 6) junk0
      = some { len := 5, cap := 0, data := [] } ∧
    ¬ (5 + (2 ^ 64 - 6) ≤ 0) := by
  refine ⟨by decide, by decide, by decide⟩

/-- Claim C6 (amended with the no-wrap bound
`len + extra ≤ 2 ^ 64 - 16`): when the spare capacity falls short of `extra`,
`reserve` reallocates to exactly `len + extra` rounded up to the pointer
width only; otherwise the buffer is returned unchanged. -/
theorem c6_reserve_exact (b : RString) (extra : Nat) (junk : Nat → Nat)
    (hb : WF b) (h : b.len + extra ≤ USIZE_MOD - 16) :
    (RString.avail b < extra →
      ∃ b2, RString.reserve b extra junk = some b2 ∧ b2.len = b.len ∧
        b2.cap = size_of_aligned (b.len + extra) 8) ∧
    (¬ RString.avail b < extra → RString.reserve b extra junk = some b) := by
  constructor
  · intro hlt
    exact ⟨_, reserve_grow_eq b extra junk hb h hlt, rfl, rfl⟩
  · intro hge
    exact reserve_noop_eq b extra junk hge

/-- Witness for C6: growth to exactly `round8(5 + 10) = 16` on the length-5
buffer, and the untouched buffer when the spare capacity suffices. -/
theorem c6_witness :
    ((WF fiveBuf ∧ 5 + 10 ≤ USIZE_MOD - 16) ∧ RString.avail fiveBuf < 10 ∧
      ¬ RString.avail fiveBuf < 2) ∧
    (∃ b2, RString.reserve fiveBuf 10 junk0 = some b2 ∧ b2.len = fiveBuf.len ∧
      b2.cap = size_of_aligned (fiveBuf.len + 10) 8) ∧
    RString.reserve fiveBuf 2 junk0 = some fiveBuf :=
  ⟨⟨⟨by decide, by decide⟩, by decide, by decide⟩,
   (c6_reserve_exact fiveBuf 10 junk0 (by decide) (by decide)).1 (by decide),
   (c6_reserve_exact fiveBuf 2 junk0 (by decide) (by decide)).2 (by decide)⟩

/-- Claim C7, counterexample to the unbounded statement: `reserve` with a
huge `extra` wraps `len + extra`, shrinks the storage to capacity 0 and
returns a buffer with `len = 4 > cap = 0` — the invariant is broken. -/
theorem c7_counterexample :
    applyOp fourBuf (RStringOp.opReserve (2 ^ 64 - 5)) junk0
      = some { len := 4, cap := 0, data := [] } ∧
    ¬ ((4 : Nat) ≤ 0) := by
  refine ⟨by decide, by decide⟩

/-- Claim C7 (amended with no-wrap bounds on the size arithmetic of the
call, `opInRange`): every public buffer operation preserves the invariant
`len ≤ cap` on every buffer it produces. -/
theorem c7_invariant (b : RString) (op : RStringOp) (junk : Nat → Nat)
    (b2 : RString) (hb : WF b) (hr : opInRange b op)
    (h : applyOp b op junk = some b2) : b2.len ≤ b2.cap :=
  (WF_applyOp b op junk b2 hb hr h).1

/-- Witness for C7: appending one byte to the length-4 buffer keeps
`len ≤ cap`. -/
theorem c7_witness :
    (WF fourBuf ∧ opInRange fourBuf (RStringOp.opAppend [9]) ∧
      applyOp fourBuf (RStringOp.opAppend [9]) junk0
        = some { len := 5, cap := 8, data := [1, 2, 3, 4, 9, 170, 170, 170] }) ∧
    ({ len := 5, cap := 8, data := [1, 2, 3, 4, 9, 170, 170, 170] } : RString).len
      ≤ ({ len := 5, cap := 8, data := [1, 2, 3, 4, 9, 170, 170, 170] } : RString).cap :=
  ⟨⟨by decide, by decide, by decide⟩,
   c7_invariant fourBuf (RStringOp.opAppend [9]) junk0 _ (by decide) (by decide)
     (by decide)⟩

/-- Claim C8: `cmp` is the byte-wise lexicographic ordering of the visible
bytes (over the shorter common prefix, the shorter buffer ordering first when
the prefixes agree), and `cmp a a = eq` for every buffer. -/
theorem c8_cmp_lexicographic (a b : RString)
    (ha : a.len ≤ a.data.length) (hb : b.len ≤ b.data.length) :
    RString.cmp a b = specLexCompare (RString.as_bytes a) (RString.as_bytes b) ∧
    RString.cmp a a = Ordering.eq := by
  constructor
  · exact memCmp_lex a.data b.data a.len b.len ha hb
  · show (match memCmp a.data a.data (min a.len a.len) with
          | Ordering.eq => natCompare a.len a.len
          | Ordering.lt => Ordering.lt
          | Ordering.gt => Ordering.gt) = Ordering.eq
    rw [Nat.min_self, memCmp_self]
    exact (natCompare_eq_iff _ _).mpr rfl

/-- Witness for C8 on the `"Hi"` and `[1,2,3,4,5]` buffers. -/
theorem c8_witness :
    (hiBuf.len ≤ hiBuf.data.length ∧ fiveBuf.len ≤ fiveBuf.data.length) ∧
    (RString.cmp hiBuf fiveBuf
        = specLexCompare (RString.as_bytes hiBuf) (RString.as_bytes fiveBuf) ∧
     RString.cmp hiBuf hiBuf = Ordering.eq) :=
  ⟨⟨by decide, by decide⟩, c8_cmp_lexicographic hiBuf fiveBuf (by decide) (by decide)⟩

/-- Claim C9, counterexample to the unbounded statement: on the `"Hi"`
buffer with `offset = 2 ^ 64 - 2` and two bytes the sum wraps to 0, the
buffer is resized to 8 bytes and the gap `mem_set` runs outside the
allocation: there is no resulting buffer whose capacity could equal the
claimed rounded value. -/
theorem c9_counterexample :
    RString.replace_raw_data hiBuf (2 ^ 64 - 2) [88, 89] junk0 = none := by
  decide

/-- Claim C9 (amended with the no-wrap bound
`offset + len(x) ≤ 2 ^ 64 - 16`): `replace_at` always goes through the
reallocator, and afterwards the capacity equals
`max(len, offset + len(x))` rounded up to the pointer width — independent of
the previous capacity, so the capacity can shrink. -/
theorem c9_replace_always_resizes (b : RString) (off : Nat) (x : List Nat)
    (junk : Nat → Nat) (hb : WF b) (h : off + x.length ≤ USIZE_MOD - 16) :
    ∃ b2, RString.replace_raw_data b off x junk = some b2 ∧
      b2.cap = size_of_aligned (max b.len (off + x.length)) 8 := by
  obtain ⟨b2, heq, _, hcap, _, _⟩ := replace_spec b off x junk hb h
  exact ⟨b2, heq, hcap⟩

/-- Witness for C9: a capacity-16 empty buffer shrinks to capacity
`round8(2) = 8` under `replace_at(0, [7, 9])`. -/
theorem c9_witness :
    (WF wideBuf ∧ 0 + List.length [7, 9] ≤ USIZE_MOD - 16) ∧
    (∃ b2, RString.replace_raw_data wideBuf 0 [7, 9] junk0 = some b2 ∧
      b2.cap = size_of_aligned (max wideBuf.len (0 + List.length [7, 9])) 8) ∧
    size_of_aligned (max wideBuf.len (0 + List.length [7, 9])) 8 < wideBuf.cap :=
  ⟨⟨by decide, by decide⟩,
   c9_replace_always_resizes wideBuf 0 [7, 9] junk0 (by decide) (by decide),
   by decide⟩

/-- Claim C10: the equality test agrees with `cmp` returning `eq`, and holds
exactly when the lengths are equal and the visible bytes agree. -/
theorem c10_eq_agrees_with_cmp (a b : RString)
    (ha : a.len ≤ a.data.length) (hb : b.len ≤ b.data.length) :
    (RString.beq a b = true ↔ RString.cmp a b = Ordering.eq) ∧
    (RString.beq a b = true ↔
      a.len = b.len ∧ RString.as_bytes a = RString.as_bytes b) := by
  have hordbeq : ∀ o : Ordering, ((o == Ordering.eq) = true) ↔ o = Ordering.eq := by
    intro o
    cases o <;> decide
  have key : RString.beq a b = true ↔
      (a.len = b.len ∧ memCmp a.data b.data a.len = Ordering.eq) := by
    simp only [RString.beq, Bool.and_eq_true, beq_iff_eq, hordbeq]
  have key2 : (a.len = b.len ∧ memCmp a.data b.data a.len = Ordering.eq) ↔
      (a.len = b.len ∧ RString.as_bytes a = RString.as_bytes b) := by
    constructor
    · rintro ⟨hlen, hmc⟩
      refine ⟨hlen, ?_⟩
      have hby := (memCmp_eq_iff a.len a.data b.data ha (by omega)).mp hmc
      unfold RString.as_bytes
      rw [← hlen]
      exact hby
    · rintro ⟨hlen, hby⟩
      refine ⟨hlen, ?_⟩
      apply (memCmp_eq_iff a.len a.data b.data ha (by omega)).mpr
      unfold RString.as_bytes at hby
      rw [← hlen] at hby
      exact hby
  refine ⟨?_, key.trans key2⟩
  rw [key]
  constructor
  · rintro ⟨hlen, hmc⟩
    show (match memCmp a.data b.data (min a.len b.len) with
          | Ordering.eq => natCompare a.len b.len
          | Ordering.lt => Ordering.lt
          | Ordering.gt => Ordering.gt) = Ordering.eq
    rw [hlen] at hmc
    rw [hlen, Nat.min_self, hmc]
    exact (natCompare_eq_iff _ _).mpr rfl
  · intro hcmp
    cases hm : memCmp a.data b.data (min a.len b.len) with
    | lt =>
      exfalso
      have hc : RString.cmp a b = Ordering.lt := by
        simp [RString.cmp, hm]
      rw [hc] at hcmp
      exact absurd hcmp (by decide)
    | gt =>
      exfalso
      have hc : RString.cmp a b = Ordering.gt := by
        simp [RString.cmp, hm]
      rw [hc] at hcmp
      exact absurd hcmp (by decide)
    | eq =>
      have hc : RString.cmp a b = natCompare a.len b.len := by
        simp [RString.cmp, hm]
      rw [hc] at hcmp
      have hlen := (natCompare_eq_iff _ _).mp hcmp
      refine ⟨hlen, ?_⟩
      have hmin : min a.len b.len = a.len := by omega
      rw [hmin] at hm
      exact hm

/-- Witness for C10 on the `"Hi"` and `[1,2,3,4]` buffers. -/
theorem c10_witness :
    (hiBuf.len ≤ hiBuf.data.length ∧ fourBuf.len ≤ fourBuf.data.length) ∧
    ((RString.beq hiBuf fourBuf = true ↔ RString.cmp hiBuf fourBuf = Ordering.eq) ∧
     (RString.beq hiBuf fourBuf = true ↔
       hiBuf.len = fourBuf.len ∧
         RString.as_bytes hiBuf = RString.as_bytes fourBuf)) :=
  ⟨⟨by decide, by decide⟩,
   c10_eq_agrees_with_cmp hiBuf fourBuf (by decide) (by decide)⟩
